import Mathlib

/-!
Verification of the cudf I/O decompression and Avro row-decoding core.

Shallow embedding of:
* `HostDecompressor_SNAPPY::Decompress` (cpp/src/io/comp/uncomp.cpp, lines 474-559),
* `ParseGZArchive` (same file, lines 127-189),
* the zip central-directory walk of `io_uncompress_single_h2d` (lines 317-351),
* `avro_decode_zigzag_varint` and `avro_decode_row` (cpp/src/io/avro/avro_gpu.cu).

Byte buffers are `List Nat` (each entry a byte value); machine integers are
modelled as `Nat`/`Int` with explicit `% 2^32` / `% 2^64` where the C code can
wrap.  Pointers into a buffer are indices; the out-of-range read default of
`List.getD` is only ever exercised where the C code itself would read past a
checked bound (which the embedded guards rule out on the paths the theorems
speak about).  Loops whose termination the C code obtains from strict cursor
progress are given an explicit iteration bound (`fuel`); every call site
passes a bound that exceeds the maximal possible number of iterations, so the
bound never alters behaviour.
-/

namespace CudfDecode

/-- Little-endian read of `n` bytes starting at `pos` (models the
`raw[0] | raw[1] << 8 | ...` and packed-struct field loads of the source). -/

def readLE (src : List Nat) (pos : Nat) : Nat → Nat
  | 0 => 0
  | n + 1 => src.getD pos 0 + 256 * readLE src (pos + 1) n

/-! ## SNAPPY host decompressor (`HostDecompressor_SNAPPY::Decompress`) -/

/-- Loop state of the lz77 decode loop: source cursor, destination bytes
written so far (`dst.length` is `dst_pos`), and `bytes_left`. -/

structure SnapState where
  cur : Nat
  dst : List Nat
  bytesLeft : Nat
deriving DecidableEq, Repr

/-- The copy inner loop `dstBytes[dst_pos] = dstBytes[dst_pos - offset]; dst_pos++`
repeated `n` times; each step reads the destination as it stands, so
overlapping copies (offset < length) replicate earlier bytes of the same copy. -/

def lzCopy (dst : List Nat) (offset : Nat) : Nat → List Nat
  | 0 => dst
  | n + 1 => lzCopy (dst ++ [dst.getD (dst.length - offset) 0]) offset n

/-- The uncompressed-length varint reader (the `do { c = *cur++; ... }
while (c > 0x7f && cur < end)` block).  Returns the accumulated 32-bit value
and the cursor after the last byte read, or `none` for the
`l >= 28 && c > 0xf` malformed-encoding rejection.  The accumulator is a
`uint32_t`; the `% 2^32` mirrors that width (the guard in fact keeps every
accumulate below `2^32`).  Each iteration advances the cursor and requires
`cur + 1 < srcLen` to continue, so `srcLen + 1` fuel never runs out. -/

def snappyVarint (src : List Nat) : Nat → Nat → Nat → Nat → Option (Nat × Nat)
  | 0, _, _, _ => none
  | fuel + 1, cur, l, acc =>
    let c := src.getD cur 0
    if 28 ≤ l ∧ 0xf < c then none
    else
      let acc2 := (acc ||| ((c % 128) <<< l)) % (2 ^ 32)
      if 0x7f < c ∧ cur + 1 < src.length then
        snappyVarint src fuel (cur + 1) (l + 7) acc2
      else
        some (acc2, cur + 1)

/-- Parse of one copy element after its tag byte: returns
`(offset, length, cursor after the offset bytes)`, or `none` when the offset
bytes would run past the source (`cur + 2 > end` style breaks). -/

def copyParse (src : List Nat) (tag cur : Nat) : Option (Nat × Nat × Nat) :=
  if 2 ≤ tag % 4 then
    -- xxxxxx1x: 6-bit length, 2-byte or 4-byte little-endian offset
    if src.length < cur + 2 then none
    else if tag % 2 = 1 then
      if src.length < cur + 4 then none
      else some (readLE src cur 4, tag / 4 + 1, cur + 4)
    else some (readLE src cur 2, tag / 4 + 1, cur + 2)
  else
    -- xxxxxx01.oooooooo: 3-bit length (offset from 4), 11-bit offset
    if src.length ≤ cur then none
    else some ((tag &&& 0xe0) * 8 + src.getD cur 0, (tag / 4) % 8 + 4, cur + 1)

/-- Parse of one literal element's length after the tag byte: returns
`(length, cursor after any explicit length bytes)`.  A 6-bit field value of
60..63 selects 1..4 trailing little-endian length bytes; the
`cur + num_bytes >= end` break is `none`.  `blen++` is 32-bit arithmetic. -/

def literalParse (src : List Nat) (tag cur : Nat) : Option (Nat × Nat) :=
  let field := tag / 4
  if 60 ≤ field then
    let n := field - 59
    if src.length ≤ cur + n then none
    else some ((readLE src cur n + 1) % (2 ^ 32), cur + n)
  else some (field + 1, cur)

/-- One iteration of the lz77 decode loop body: reads the tag byte at `s.cur`
and performs the tagged element.  `none` models every `break` (abort) path. -/

def snappyElement (src : List Nat) (s : SnapState) : Option SnapState :=
  let tag := src.getD s.cur 0
  if tag % 4 ≠ 0 then
    match copyParse src tag (s.cur + 1) with
    | none => none
    | some (offset, blen, cur2) =>
      -- `offset - 1u >= dst_pos || blen > bytes_left`: with uint32 wraparound,
      -- offset 0 always fails, so the guard is ¬(1 ≤ offset ≤ dst_pos).
      if offset = 0 ∨ s.dst.length < offset ∨ s.bytesLeft < blen then none
      else some ⟨cur2, lzCopy s.dst offset blen, s.bytesLeft - blen⟩
  else
    match literalParse src tag (s.cur + 1) with
    | none => none
    | some (blen, cur2) =>
      if src.length < cur2 + blen ∨ s.bytesLeft < blen then none
      else some ⟨cur2 + blen, s.dst ++ (src.drop cur2).take blen, s.bytesLeft - blen⟩

/-- The `do { ... } while (bytes_left && cur < end)` decode loop.  A `break`
(element returns `none`) leaves the state as it stands; `fuel` dominates the
iteration count (each element consumes at least one source byte, so
`src.length + 1` is always enough at the call site). -/

def snappyLoop (src : List Nat) : Nat → SnapState → SnapState
  | 0, s => s
  | fuel + 1, s =>
    if s.bytesLeft = 0 then s
    else if src.length ≤ s.cur then s
    else
      match snappyElement src s with
      | none => s
      | some s2 => snappyLoop src fuel s2

/-- The function's return statement: `(bytes_left) ? 0 : uncompressed_size`. -/

def snappyFinish (size : Nat) (s : SnapState) : Nat :=
  if s.bytesLeft = 0 then size else 0

/-- The length-prefix phase of `Decompress`: `srcLen < 1`, varint rejection,
and the `!uncompressed_size || uncompressed_size > dstLen || cur >= end`
check.  Returns the declared size and the cursor at the start of the element
stream. -/

def snappyHeader (src : List Nat) (dstLen : Nat) : Option (Nat × Nat) :=
  if src.length < 1 then none
  else
    match snappyVarint src (src.length + 1) 0 0 0 with
    | none => none
    | some (size, cur0) =>
      if size = 0 ∨ dstLen < size ∨ src.length ≤ cur0 then none
      else some (size, cur0)

/-- Return value of `HostDecompressor_SNAPPY::Decompress`. -/

def snappyDecompress (src : List Nat) (dstLen : Nat) : Nat :=
  match snappyHeader src dstLen with
  | none => 0
  | some (size, cur0) =>
    snappyFinish size (snappyLoop src (src.length + 1) ⟨cur0, [], size⟩)

/-- A copy element at the current state whose offset or length is invalid:
offset outside `1 ≤ offset ≤ dst_pos`, length exceeding the remaining
declared length, or offset bytes running past the source buffer. -/

def copyViolation (src : List Nat) (s : SnapState) : Bool :=
  decide (s.cur < src.length) && decide ((src.getD s.cur 0) % 4 ≠ 0) &&
    (match copyParse src (src.getD s.cur 0) (s.cur + 1) with
     | none => true
     | some (offset, blen, _) =>
       decide (offset = 0) || decide (s.dst.length < offset) ||
         decide (s.bytesLeft < blen))

/-- Stated from the spec claim's words, for comparison with `literalParse`:
explicit trailing length bytes are read only when the 6-bit field equals 60
(one byte there); every other field value gives length `field + 1`. -/

def literalParseClaim (src : List Nat) (tag cur : Nat) : Option (Nat × Nat) :=
  let field := tag / 4
  if field = 60 then
    if src.length ≤ cur + 1 then none
    else some ((readLE src cur 1 + 1) % (2 ^ 32), cur + 1)
  else some (field + 1, cur)

/-! ## Gzip archive parsing (`ParseGZArchive`) -/

/-- The successful parse result: payload span (offset and length into the
source) and the two little-endian trailer fields (CRC32 and size mod 2^32). -/

structure GzArch where
  compOfs : Nat
  compLen : Nat
  crc32 : Nat
  isize : Nat
deriving DecidableEq, Repr

/-- The zero-terminated-string scan (`do { if (l >= len) return false;
c = raw[l]; l++; } while (c != 0)`): length of the string including its
terminator, or `none` when no terminator occurs within `rem` bytes. -/

def zstrLen (src : List Nat) (pos : Nat) : Nat → Option Nat
  | 0 => none
  | rem + 1 =>
    if src.getD pos 0 = 0 then some 1
    else (zstrLen src (pos + 1) rem).map (fun l => l + 1)

/-- The optional extra field: 16-bit little-endian length prefix, then that
many bytes; fails on truncation. -/

def gzExtraStep (src : List Nat) (pos rem : Nat) : Option (Nat × Nat) :=
  if rem < 2 then none
  else
    let xlen := readLE src pos 2
    if rem - 2 < xlen then none
    else some (pos + 2 + xlen, rem - 2 - xlen)

/-- An optional zero-terminated field (name or comment). -/

def gzZstrStep (src : List Nat) (pos rem : Nat) : Option (Nat × Nat) :=
  (zstrLen src pos rem).map (fun l => (pos + l, rem - l))

/-- The four optional-field parses selected by the flag byte, strictly in
the order extra, name, comment, header-CRC.
Modelled from the spec for the flag constants (`GZIPHeaderFlag` lives in
io_uncomp.h, which is not among the sources): bits select extra (4),
name (8), comment (16) and header-CRC (2) presence. -/

def gzOptFields (src : List Nat) (flags pos rem : Nat) : Option (Nat × Nat) :=
  match (if flags &&& 4 ≠ 0 then gzExtraStep src pos rem else some (pos, rem)) with
  | none => none
  | some (p1, r1) =>
    match (if flags &&& 8 ≠ 0 then gzZstrStep src p1 r1 else some (p1, r1)) with
    | none => none
    | some (p2, r2) =>
      match (if flags &&& 16 ≠ 0 then gzZstrStep src p2 r2 else some (p2, r2)) with
      | none => none
      | some (p3, r3) =>
        if flags &&& 2 ≠ 0 then
          if r3 < 2 then none else some (p3 + 2, r3 - 2)
        else some (p3, r3)

/-- The gzip parse `ParseGZArchive`: base-header and magic validation, optional fields per
the flag byte, little-endian trailer decode, and the final
`comp_mthd == 8 && len > 0` success condition.  `none` models `false`. -/

def ParseGZArchive (src : List Nat) : Option GzArch :=
  if src.length < 18 then none
  else if src.getD 0 0 = 0x1f ∧ src.getD 1 0 = 0x8b then
    match gzOptFields src (src.getD 3 0) 10 (src.length - 10) with
    | none => none
    | some (pos, rem) =>
      if rem < 8 then none
      else if src.getD 2 0 = 8 ∧ 0 < rem - 8 then
        some ⟨pos, rem - 8, readLE src (pos + rem - 8) 4, readLE src (pos + rem - 4) 4⟩
      else none
  else none

/-! ## Zip central-directory walk (`io_uncompress_single_h2d`, ZIP case)

Field offsets follow the packed `zip_cdfh_s` (46 bytes: method at +10,
comp_size at +20, uncomp_size at +24, fname_len/extra_len/comment_len at
+28/+30/+32, hdr_ofs at +42) and `zip_lfh_s` (30 bytes: method at +8,
comp_size at +18, uncomp_size at +22, fname_len/extra_len at +26/+28),
all little-endian. -/

/-- The entry length `cdfh_len`: fixed central-directory header size plus the entry's
filename, extra and comment lengths. -/

def zipEntryLen (src : List Nat) (p : Nat) : Nat :=
  46 + readLE src (p + 28) 2 + readLE src (p + 30) 2 + readLE src (p + 32) 2

/-- The nested local-file-header tests: header within the buffer, valid
signature, variable fields within the buffer, method 8 (deflate) with
nonzero sizes, and payload end within the buffer.  Any failure makes the
walk continue with the next central-directory entry. -/

def zipLfhAccept (src : List Nat) (q : Nat) : Bool :=
  decide (q + 30 ≤ src.length) && decide (readLE src q 4 = 0x04034b50) &&
    decide (q + 30 + readLE src (q + 26) 2 + readLE src (q + 28) 2 ≤ src.length) &&
    decide (readLE src (q + 8) 2 = 8) && decide (0 < readLE src (q + 18) 4) &&
    decide (0 < readLE src (q + 22) 4) &&
    decide (q + 30 + readLE src (q + 26) 2 + readLE src (q + 28) 2 +
      readLE src (q + 18) 4 ≤ src.length)

/-- The `for (i = 0; i < num_entries; i++)` walk over central-directory
entries at `base + ofs` (`base` is the located central directory's offset,
`n` the remaining entry count).  Returns the first qualifying entry's
`(payload offset, compressed size, declared uncompressed size)`; a
truncated directory or bad signature stops the walk (`comp_data` stays
null, i.e. `none`). -/

def zipFindEntry (src : List Nat) (base cdirSize : Nat) : Nat → Nat → Option (Nat × Nat × Nat)
  | 0, _ => none
  | n + 1, ofs =>
    let p := base + ofs
    if cdirSize < ofs + zipEntryLen src p ∨ readLE src p 4 ≠ 0x02014b50 then none
    else if readLE src (p + 10) 2 = 8 ∧ 0 < readLE src (p + 20) 4 ∧
        0 < readLE src (p + 24) 4 then
      let q := readLE src (p + 42) 4
      if zipLfhAccept src q then
        some (q + 30 + readLE src (q + 26) 2 + readLE src (q + 28) 2,
          readLE src (q + 18) 4, readLE src (q + 22) 4)
      else zipFindEntry src base cdirSize n (ofs + zipEntryLen src p)
    else zipFindEntry src base cdirSize n (ofs + zipEntryLen src p)

/-! ## Avro GPU row decoder (`avro_gpu.cu`) -/

/-- The `while (cur < end)` continuation-byte loop of
`avro_decode_zigzag_varint`: accumulates `u += (c & 0x7f) * scale` with
64-bit wrap, doubling `scale` by 128 (also 64-bit), and stops after a byte
below 0x80.  Each iteration advances `cur` and requires `cur < e`, so `e`
fuel is always enough. -/

def avroVarintLoop (src : List Nat) (e : Nat) : Nat → Nat → Nat → Nat → Nat × Nat
  | 0, cur, u, _ => (u, cur)
  | fuel + 1, cur, u, scale =>
    if cur < e then
      let c := src.getD cur 0
      let u2 := (u + (c % 128) * scale) % (2 ^ 64)
      if c < 128 then (u2, cur + 1)
      else avroVarintLoop src e fuel (cur + 1) u2 ((scale * 128) % (2 ^ 64))
    else (u, cur)

/-- The unsigned accumulation phase of `avro_decode_zigzag_varint`:
returns `(u, cursor after the varint)`.  With `cur >= end` it reads nothing
and leaves the cursor in place (`u = 0`). -/

def avroVarintU (src : List Nat) (cur e : Nat) : Nat × Nat :=
  if cur < e then
    let c := src.getD cur 0
    if 0x7f < c then avroVarintLoop src e e (cur + 1) (c % 128) 128
    else (c, cur + 1)
  else (0, cur)

/-- The expression `(int64_t)((u >> 1u) ^ -(int64_t)(u & 1))`: zig-zag sign restoration of
a 64-bit unsigned accumulator. -/

def zigzagOf (u : Nat) : Int :=
  if u % 2 = 0 then ((u / 2 : Nat) : Int) else -(((u / 2 : Nat) : Int) + 1)

/-- The function `avro_decode_zigzag_varint` as value-and-new-cursor. -/

def avro_decode_zigzag_varint (src : List Nat) (cur e : Nat) : Int × Nat :=
  (zigzagOf (avroVarintU src cur e).1, (avroVarintU src cur e).2)

/-- One flattened schema node (`schemadesc_s`): kind, `count` (children /
dictionary base / union branches, depending on kind) and whether `dataptr`
is non-null.  Kind codes modelled from the spec's kind list
(`avro_common.h` is not among the sources): null 0, boolean 1, int 2,
long 3, float 4, double 5, bytes 6, string 7, enum 8, record 9, array 10,
union 11; the `kind >= type_record` subtree test is `9 ≤ kind`. -/

structure SchemaEntry where
  kind : Nat
  count : Nat
  hasData : Bool
deriving DecidableEq, Repr

def noSchema : SchemaEntry := ⟨0, 0, false⟩

/-- One store performed by `avro_decode_row` against caller-owned output
state: validity-bit clears, null-counter increments, and per-kind value
stores (floats/doubles carry their raw little-endian bit patterns). -/

inductive AvroWrite where
  | nullClear (i row : Nat)
  | nullCount (i : Nat)
  | storeInt (i row : Nat) (v : Int)
  | storeLong (i row : Nat) (v : Int)
  | storeStr (i row : Nat) (ptr : Option Nat) (len : Nat)
  | storeFloat (i row : Nat) (v : Nat)
  | storeDouble (i row : Nat) (v : Nat)
  | storeBool (i row : Nat) (v : Nat)
deriving DecidableEq, Repr

/-- The `while (skip > 0 && i < schema_len)` subtree-skipping walk (nodes
with `kind >= type_record` contribute their `count` extra nodes).  Each
iteration advances `i`, so `schema.length` fuel is always enough. -/

def skipWalk (schema : List SchemaEntry) : Nat → Nat → Int → Nat
  | 0, i, _ => i
  | fuel + 1, i, skip =>
    if 0 < skip ∧ i < schema.length then
      skipWalk schema fuel (i + 1)
        ((if 9 ≤ (schema.getD i noSchema).kind then
            skip + ((schema.getD i noSchema).count : Int)
          else skip) - 1)
    else i

/-- Truncation of an `int64_t` value to `int32_t` (two's complement). -/

def int32of (v : Int) : Int := (v + 2 ^ 31) % 2 ^ 32 - 2 ^ 31

/-- Conversion of an `int32_t` value to `uint32_t` (modular). -/

def uint32of (v : Int) : Nat := (v % 2 ^ 32).toNat

/-- The array block-count decode: a zig-zag varint truncated to `int32_t`;
when negative, one further varint (the block's byte size) is read and
discarded and the count negated (still in `int32_t`); the result is the
`uint32_t` `array_repeat_count` plus the cursor after all reads. -/

def avroArrayCount (src : List Nat) (cur e : Nat) : Nat × Nat :=
  let p := avro_decode_zigzag_varint src cur e
  let b := int32of p.1
  if b < 0 then (uint32of (int32of (-b)), (avro_decode_zigzag_varint src p.2 e).2)
  else (uint32of b, p.2)

/-- The per-row decode loop registers: schema cursor `i`, `array_start`,
`array_repeat_count` (a `uint32_t`), `array_children` (an `int`), and the
input cursor. -/

structure AvroState where
  i : Nat
  arrStart : Nat
  arrRepeat : Nat
  arrChildren : Int
  cur : Nat
deriving DecidableEq, Repr

/-- Outcome of one `for`-body iteration of `avro_decode_row`: either the
loop ends (`break` or `i >= schema_len`), yielding the returned cursor, or
it continues in a new state having emitted some output stores. -/

inductive AvroStep where
  | done (cur : Nat)
  | next (st : AvroState) (ws : List AvroWrite)
deriving DecidableEq, Repr

def stepCur : AvroStep → Nat
  | .done c => c
  | .next st _ => st.cur

def stepWrites : AvroStep → List AvroWrite
  | .done _ => []
  | .next _ ws => ws

/-- The common tail of every loop iteration: `array_children` bookkeeping,
the `skip` subtree walk, and the array re-entry test
(`if (array_repeat_count != 0 && array_children <= 0 && cur < end)`). -/

def avroTail (schema : List SchemaEntry) (e : Nat) (ent : SchemaEntry) (i : Nat)
    (cur2 : Nat) (ws : List AvroWrite) (aS2 aR2 : Nat) (aC2 skip2 : Int) : AvroStep :=
  let aC3 := if aR2 ≠ 0 then
      aC2 - 1 + (if 9 ≤ ent.kind then (ent.count : Int) else 0)
    else aC2
  let i1 := skipWalk schema schema.length (i + 1) skip2
  if aR2 ≠ 0 ∧ aC3 ≤ 0 ∧ cur2 < e then
    if aR2 - 1 = 0 then .next ⟨aS2, aS2, 0, aC3, cur2⟩ ws
    else .next ⟨aS2 + 1, aS2, aR2 - 1, ((schema.getD aS2 noSchema).count : Int), cur2⟩ ws
  else .next ⟨i1, aS2, aR2, aC3, cur2⟩ ws

/-- The `switch (kind)` of `avro_decode_row` plus the common loop tail
(array-children bookkeeping, subtree skip, array re-entry).  `st.i` points
at the node being decoded (after any union preprocessing) and `skip0` is
the pending skip (a union's `skip_after`, else 0).  `dict` is the global
dictionary as `(pointer, length)` pairs. -/

def avroSwitch (schema : List SchemaEntry) (dict : List (Nat × Nat))
    (row maxRows : Nat) (src : List Nat) (e : Nat) (st : AvroState)
    (skip0 : Int) : AvroStep :=
  let ent := schema.getD st.i noSchema
  let write := ent.hasData && decide (row < maxRows)
  let r : Nat × List AvroWrite × Nat × Nat × Int × Int :=
    if ent.kind = 0 then
      -- type_null: atomic validity clear + null-counter increment
      (st.cur, (if write then [.nullClear st.i row, .nullCount st.i] else []),
        st.arrStart, st.arrRepeat, st.arrChildren, skip0)
    else if ent.kind = 2 ∨ ent.kind = 3 ∨ ent.kind = 6 ∨ ent.kind = 7 ∨
        ent.kind = 8 then
      let p := avro_decode_zigzag_varint src st.cur e
      if ent.kind = 2 then
        (p.2, (if write then [.storeInt st.i row (int32of p.1)] else []),
          st.arrStart, st.arrRepeat, st.arrChildren, skip0)
      else if ent.kind = 3 then
        (p.2, (if write then [.storeLong st.i row p.1] else []),
          st.arrStart, st.arrRepeat, st.arrChildren, skip0)
      else if ent.kind = 8 then
        -- enum: dictionary lookup at count + v (size_t arithmetic)
        let idx := ((ent.count : Int) + p.1) % 2 ^ 64
        let pr : Option Nat × Nat :=
          if idx.toNat < dict.length then
            (some (dict.getD idx.toNat (0, 0)).1, (dict.getD idx.toNat (0, 0)).2)
          else (none, 0)
        (p.2, (if write then [.storeStr st.i row pr.1 pr.2] else []),
          st.arrStart, st.arrRepeat, st.arrChildren, skip0)
      else
        -- bytes / string: non-owning view when v >= 0 and cur + v <= end
        if 0 ≤ p.1 ∧ p.2 + p.1.toNat ≤ e then
          (p.2 + p.1.toNat,
            (if write then [.storeStr st.i row (some p.2) p.1.toNat] else []),
            st.arrStart, st.arrRepeat, st.arrChildren, skip0)
        else
          (p.2, (if write then [.storeStr st.i row none 0] else []),
            st.arrStart, st.arrRepeat, st.arrChildren, skip0)
    else if ent.kind = 4 then
      -- type_float: `cur += 4` only on a full read or when not writing
      if write then
        if st.cur + 3 < e then
          (st.cur + 4, [.storeFloat st.i row (readLE src st.cur 4)],
            st.arrStart, st.arrRepeat, st.arrChildren, skip0)
        else
          (st.cur, [.storeFloat st.i row 0],
            st.arrStart, st.arrRepeat, st.arrChildren, skip0)
      else
        (st.cur + 4, [], st.arrStart, st.arrRepeat, st.arrChildren, skip0)
    else if ent.kind = 5 then
      if write then
        if st.cur + 7 < e then
          (st.cur + 8, [.storeDouble st.i row (readLE src st.cur 8)],
            st.arrStart, st.arrRepeat, st.arrChildren, skip0)
        else
          (st.cur, [.storeDouble st.i row 0],
            st.arrStart, st.arrRepeat, st.arrChildren, skip0)
      else
        (st.cur + 8, [], st.arrStart, st.arrRepeat, st.arrChildren, skip0)
    else if ent.kind = 1 then
      -- type_boolean: one byte, cursor always advances
      let b := if st.cur < e then src.getD st.cur 0 else 0
      (st.cur + 1,
        (if write then [.storeBool st.i row (if b ≠ 0 then 1 else 0)] else []),
        st.arrStart, st.arrRepeat, st.arrChildren, skip0)
    else if ent.kind = 10 then
      -- type_array: block count; zero count skips the item subtree
      let q := avroArrayCount src st.cur e
      (q.2, [], st.i, q.1, 1,
        skip0 + (if q.1 = 0 then (ent.count : Int) else 0))
    else
      -- type_record (children follow inline) and any other kind: no-op
      (st.cur, [], st.arrStart, st.arrRepeat, st.arrChildren, skip0)
  avroTail schema e ent st.i r.1 r.2.1 r.2.2.1 r.2.2.2.1 r.2.2.2.2.1 r.2.2.2.2.2

/-- One full iteration of the `for (i = 0; i < schema_len;)` loop of
`avro_decode_row`, including the union preprocessing (1-byte discriminant,
skip of preceding branches, `skip_after` of following ones). -/

def avroStep (schema : List SchemaEntry) (dict : List (Nat × Nat))
    (row maxRows : Nat) (src : List Nat) (e : Nat) (st : AvroState) : AvroStep :=
  if schema.length ≤ st.i then .done st.cur
  else if (schema.getD st.i noSchema).kind = 11 then
    if e ≤ st.cur then .done st.cur
    else
      let d := src.getD st.cur 0 / 2
      let skipAfter : Int := ((schema.getD st.i noSchema).count : Int) - d - 1
      let i1 := skipWalk schema schema.length (st.i + 1) (d : Int)
      if schema.length ≤ i1 ∨ skipAfter < 0 then .done (st.cur + 1)
      else avroSwitch schema dict row maxRows src e
        { st with i := i1, cur := st.cur + 1 } skipAfter
  else avroSwitch schema dict row maxRows src e st 0

/-- `avro_decode_row` for one row: iterates `avroStep` until the loop ends,
returning the final cursor and the sequence of output stores.  `fuel`
bounds the iteration count (call sites pass enough for the traces they
examine; every theorem quantifying over `fuel` holds for all of them). -/

def avroDecodeRow (schema : List SchemaEntry) (dict : List (Nat × Nat))
    (row maxRows : Nat) (src : List Nat) (e : Nat) :
    Nat → AvroState → Nat × List AvroWrite
  | 0, st => (st.cur, [])
  | fuel + 1, st =>
    match avroStep schema dict row maxRows src e st with
    | .done c => (c, [])
    | .next st2 ws =>
      let p := avroDecodeRow schema dict row maxRows src e fuel st2
      (p.1, ws ++ p.2)

/-- The row argument `cur_row - first_row + threadIdx.x` that
`gpuDecodeAvroColumnData` passes to `avro_decode_row`, computed in `size_t`
(64-bit modular) arithmetic. -/

def kernelRowArg (cur_row first_row tix : Nat) : Nat :=
  ((cur_row + (2 ^ 64 - first_row % 2 ^ 64)) % 2 ^ 64 + tix) % 2 ^ 64

/-- The schema of the spec's array test: a one-item array of ints
(`[array (count 1), int]`), the int column having an output buffer. -/

def arrSchema : List SchemaEntry := [⟨10, 1, false⟩, ⟨2, 0, true⟩]

/-- Encoded input for that schema: block count `n` (zig-zag, one byte
`2 * n`), then `n` items each the one-byte varint `2` (the int value 1),
then the closing block count 0, then arbitrary trailing bytes. -/

def arrSrc (n : Nat) (rest : List Nat) : List Nat :=
  (2 * n) :: (List.replicate n 2 ++ 0 :: rest)

theorem lzCopy_length (offset : Nat) :
    ∀ (n : Nat) (dst : List Nat), (lzCopy dst offset n).length = dst.length + n := by
  intro n
  induction n with
  | zero => intro dst; rfl
  | succ k ih =>
    intro dst
    show (lzCopy (dst ++ [dst.getD (dst.length - offset) 0]) offset k).length = _
    rw [ih]
    simp
    omega

theorem snappyElement_sum {src : List Nat} {s s2 : SnapState}
    (h : snappyElement src s = some s2) :
    s2.dst.length + s2.bytesLeft = s.dst.length + s.bytesLeft := by
  simp only [snappyElement] at h
  by_cases ht : (src.getD s.cur 0) % 4 ≠ 0
  · rw [if_pos ht] at h
    rcases hp : copyParse src (src.getD s.cur 0) (s.cur + 1) with _ | ⟨offset, blen, cur2⟩
    · rw [hp] at h
      exact absurd h (by simp)
    · rw [hp] at h
      dsimp only at h
      by_cases hg : offset = 0 ∨ s.dst.length < offset ∨ s.bytesLeft < blen
      · rw [if_pos hg] at h
        exact absurd h (by simp)
      · rw [if_neg hg] at h
        have hs := Option.some.inj h
        subst hs
        push_neg at hg
        dsimp only
        rw [lzCopy_length]
        omega
  · rw [if_neg ht] at h
    rcases hp : literalParse src (src.getD s.cur 0) (s.cur + 1) with _ | ⟨blen, cur2⟩
    · rw [hp] at h
      exact absurd h (by simp)
    · rw [hp] at h
      dsimp only at h
      by_cases hg : src.length < cur2 + blen ∨ s.bytesLeft < blen
      · rw [if_pos hg] at h
        exact absurd h (by simp)
      · rw [if_neg hg] at h
        have hs := Option.some.inj h
        subst hs
        push_neg at hg
        dsimp only
        rw [List.length_append, List.length_take, List.length_drop]
        omega

theorem snappyLoop_sum (src : List Nat) :
    ∀ (fuel : Nat) (s : SnapState),
      (snappyLoop src fuel s).dst.length + (snappyLoop src fuel s).bytesLeft =
        s.dst.length + s.bytesLeft := by
  intro fuel
  induction fuel with
  | zero => intro s; rfl
  | succ k ih =>
    intro s
    simp only [snappyLoop]
    by_cases h1 : s.bytesLeft = 0
    · rw [if_pos h1]
    · rw [if_neg h1]
      by_cases h2 : src.length ≤ s.cur
      · rw [if_pos h2]
      · rw [if_neg h2]
        rcases he : snappyElement src s with _ | s2
        · rfl
        · exact (ih s2).trans (snappyElement_sum he)

/-- C1.  A copy element whose offset violates `1 ≤ offset ≤ dst_pos`, whose
length exceeds the remaining declared length, or whose offset bytes would
read past the source buffer, aborts the decode loop with `bytes_left` still
nonzero, so the function's return value is 0. -/
theorem snappy_copy_violation_aborts (src : List Nat) (s : SnapState)
    (fuel size : Nat) (hleft : s.bytesLeft ≠ 0) (hv : copyViolation src s = true) :
    (snappyLoop src (fuel + 1) s).bytesLeft ≠ 0 ∧
      snappyFinish size (snappyLoop src (fuel + 1) s) = 0 := by
  simp only [copyViolation, Bool.and_eq_true, decide_eq_true_eq] at hv
  obtain ⟨⟨hcur, htag⟩, hrest⟩ := hv
  have helem : snappyElement src s = none := by
    simp only [snappyElement]
    rw [if_pos htag]
    rcases hp : copyParse src (src.getD s.cur 0) (s.cur + 1) with _ | ⟨offset, blen, cur2⟩
    · rfl
    · rw [hp] at hrest
      simp only [Bool.or_eq_true, decide_eq_true_eq] at hrest
      dsimp only
      rw [if_pos (by tauto)]
  have hstop : snappyLoop src (fuel + 1) s = s := by
    simp only [snappyLoop, if_neg hleft, if_neg (Nat.not_le.2 hcur), helem]
  rw [hstop]
  exact ⟨hleft, by simp [snappyFinish, hleft]⟩

theorem snappy_copy_violation_aborts_witness :
    copyViolation [3, 1, 5] ⟨1, [], 3⟩ = true ∧
      (snappyLoop [3, 1, 5] 4 ⟨1, [], 3⟩).bytesLeft ≠ 0 ∧
      snappyFinish 3 (snappyLoop [3, 1, 5] 4 ⟨1, [], 3⟩) = 0 := by
  have h := snappy_copy_violation_aborts [3, 1, 5] ⟨1, [], 3⟩ 3 3
    (by decide) (by decide)
  exact ⟨by decide, h.1, h.2⟩

/-- C2 counterexample.  On source `[1, 0, 65, 255]` (declared size 1, a
1-byte literal, then one trailing source byte) the decoder returns 1
(success) although the final cursor is 3 while the source has 4 bytes: the
source is not exhausted when success is signalled. -/
theorem snappy_success_without_source_exhausted :
    snappyDecompress [1, 0, 65, 255] 1 = 1 ∧
      (snappyLoop [1, 0, 65, 255] 5 ⟨1, [], 1⟩).cur = 3 ∧
      [1, 0, 65, 255].length = 4 := by decide

/-- C2 (amended).  A nonzero return happens exactly when the decode loop
drives `bytes_left` to zero; the returned value is then the declared size
and the produced output has exactly that many bytes.  Trailing unconsumed
source bytes are possible (the loop stops once the declared length is
produced). -/
theorem snappy_nonzero_iff_full_length (src : List Nat) (dstLen size cur0 : Nat)
    (hhdr : snappyHeader src dstLen = some (size, cur0))
    (hnz : snappyDecompress src dstLen ≠ 0) :
    snappyDecompress src dstLen = size ∧
      (snappyLoop src (src.length + 1) ⟨cur0, [], size⟩).bytesLeft = 0 ∧
      (snappyLoop src (src.length + 1) ⟨cur0, [], size⟩).dst.length = size := by
  have hd : snappyDecompress src dstLen =
      snappyFinish size (snappyLoop src (src.length + 1) ⟨cur0, [], size⟩) := by
    simp [snappyDecompress, hhdr]
  by_cases hb : (snappyLoop src (src.length + 1) ⟨cur0, [], size⟩).bytesLeft = 0
  · have hsum := snappyLoop_sum src (src.length + 1) ⟨cur0, [], size⟩
    refine ⟨by simp [hd, snappyFinish, hb], hb, ?_⟩
    simp at hsum
    omega
  · exact absurd (by simp [hd, snappyFinish, hb]) hnz

theorem snappy_nonzero_iff_full_length_witness :
    snappyDecompress [1, 0, 65, 255] 1 = 1 ∧
      (snappyLoop [1, 0, 65, 255] 5 ⟨1, [], 1⟩).dst.length = 1 := by
  have h := snappy_nonzero_iff_full_length [1, 0, 65, 255] 1 1 1
    (by decide) (by decide)
  exact ⟨h.1, h.2.2⟩

/-- C3 counterexample.  The tag byte `0xF4` has low bits 00 and 6-bit field
61 ≠ 60, yet its literal length comes from 2 explicit trailing length bytes
(here `[1, 0]`, giving length 2), not from the field: the decoder consumes
them and succeeds with output `[65, 66]`, while the claim's reading (trailing
bytes only for field 60) would give length 62. -/
theorem snappy_literal_field61_reads_trailing_bytes :
    literalParse [2, 244, 1, 0, 65, 66] 244 2 = some (2, 4) ∧
      literalParseClaim [2, 244, 1, 0, 65, 66] 244 2 = some (62, 2) ∧
      literalParse [2, 244, 1, 0, 65, 66] 244 2 ≠
        literalParseClaim [2, 244, 1, 0, 65, 66] 244 2 ∧
      snappyDecompress [2, 244, 1, 0, 65, 66] 2 = 2 ∧
      (snappyLoop [2, 244, 1, 0, 65, 66] 7 ⟨1, [], 2⟩).dst = [65, 66] := by decide

/-- C3 (amended).  A `00` tag whose 6-bit field is below 60 selects a literal
of length `field + 1`; a field of 60, 61, 62 or 63 instead selects
`field - 59` (1..4) explicit trailing little-endian length bytes, read
immediately after the tag, and the length is that value plus one (32-bit). -/
theorem snappy_literal_length_rule (src : List Nat) (tag cur : Nat) :
    (tag / 4 < 60 → literalParse src tag cur = some (tag / 4 + 1, cur)) ∧
    (60 ≤ tag / 4 → cur + (tag / 4 - 59) < src.length →
      literalParse src tag cur =
        some ((readLE src cur (tag / 4 - 59) + 1) % 2 ^ 32,
          cur + (tag / 4 - 59))) := by
  constructor
  · intro h
    simp [literalParse, Nat.not_le.2 h]
  · intro h hb
    simp [literalParse, h, Nat.not_le.2 hb]

theorem snappy_literal_length_rule_witness :
    literalParse [9, 9, 9] 8 1 = some (3, 1) ∧
      literalParse [0, 5, 0] 240 1 = some (6, 2) := by
  exact ⟨(snappy_literal_length_rule [9, 9, 9] 8 1).1 (by decide),
    (snappy_literal_length_rule [0, 5, 0] 240 1).2 (by decide) (by decide)⟩

/-- C10.  Once the varint length prefix passes the initial check, the
declared size is at most the destination capacity and is nonzero; the decode
loop preserves `dst_pos + bytes_left = size`, so the output position (where
every destination write lands) never exceeds the declared size, hence never
the capacity; and a nonzero return equals the declared size exactly. -/
theorem snappy_dst_bounded (src : List Nat) (dstLen size cur0 : Nat)
    (hhdr : snappyHeader src dstLen = some (size, cur0)) :
    size ≤ dstLen ∧ size ≠ 0 ∧
      (∀ (fuel : Nat) (s : SnapState), s.dst.length + s.bytesLeft = size →
        (snappyLoop src fuel s).dst.length + (snappyLoop src fuel s).bytesLeft
            = size ∧
          (snappyLoop src fuel s).dst.length ≤ dstLen) ∧
      (snappyDecompress src dstLen ≠ 0 → snappyDecompress src dstLen = size) := by
  simp only [snappyHeader] at hhdr
  split at hhdr
  · exact absurd hhdr (by simp)
  · rename_i hlen
    rcases hv : snappyVarint src (src.length + 1) 0 0 0 with _ | ⟨size2, c2⟩
    · rw [hv] at hhdr
      exact absurd hhdr (by simp)
    · rw [hv] at hhdr
      dsimp only at hhdr
      by_cases hcond : size2 = 0 ∨ dstLen < size2 ∨ src.length ≤ c2
      · rw [if_pos hcond] at hhdr
        exact absurd hhdr (by simp)
      · rw [if_neg hcond] at hhdr
        have hp := Option.some.inj hhdr
        have hsz : size2 = size := congrArg Prod.fst hp
        have hc : c2 = cur0 := congrArg Prod.snd hp
        subst hsz
        subst hc
        push_neg at hcond
        refine ⟨hcond.2.1, hcond.1, ?_, ?_⟩
        · intro fuel s hs
          have hsum := snappyLoop_sum src fuel s
          rw [hs] at hsum
          exact ⟨hsum, by omega⟩
        · intro hnz
          have hd : snappyDecompress src dstLen =
              snappyFinish size2 (snappyLoop src (src.length + 1)
                ⟨c2, [], size2⟩) := by
            simp only [snappyDecompress, snappyHeader]
            rw [if_neg hlen, hv]
            dsimp only
            rw [if_neg (by push_neg; exact hcond)]
          rw [hd] at hnz ⊢
          simp only [snappyFinish] at hnz ⊢
          split at hnz
          · simp [snappyFinish, *]
          · exact absurd rfl hnz

theorem snappy_dst_bounded_witness :
    (snappyLoop [1, 0, 65] 4 ⟨1, [], 1⟩).dst.length ≤ 1 ∧
      snappyDecompress [1, 0, 65] 1 = 1 := by
  have h := snappy_dst_bounded [1, 0, 65] 1 1 1 (by decide)
  exact ⟨(h.2.2.1 4 ⟨1, [], 1⟩ (by decide)).2, h.2.2.2 (by decide)⟩

theorem zstrLen_le (src : List Nat) :
    ∀ (rem pos l : Nat), zstrLen src pos rem = some l → 1 ≤ l ∧ l ≤ rem := by
  intro rem
  induction rem with
  | zero => intro pos l h; cases h
  | succ k ih =>
    intro pos l h
    unfold zstrLen at h
    by_cases h0 : src.getD pos 0 = 0
    · rw [if_pos h0] at h
      have := Option.some.inj h
      omega
    · rw [if_neg h0] at h
      rcases hz : zstrLen src (pos + 1) k with _ | l2
      · rw [hz] at h; cases h
      · rw [hz] at h
        simp only [Option.map_some'] at h
        have h1 := Option.some.inj h
        have h2 := ih (pos + 1) l2 hz
        omega

theorem gzExtraStep_sum {src : List Nat} {pos rem p r : Nat}
    (h : gzExtraStep src pos rem = some (p, r)) : p + r = pos + rem ∧ pos ≤ p := by
  unfold gzExtraStep at h
  by_cases h1 : rem < 2
  · rw [if_pos h1] at h; cases h
  · rw [if_neg h1] at h
    dsimp only at h
    by_cases h2 : rem - 2 < readLE src pos 2
    · rw [if_pos h2] at h; cases h
    · rw [if_neg h2] at h
      have hp := congrArg Prod.fst (Option.some.inj h)
      have hr := congrArg Prod.snd (Option.some.inj h)
      dsimp only at hp hr
      omega

theorem gzZstrStep_sum {src : List Nat} {pos rem p r : Nat}
    (h : gzZstrStep src pos rem = some (p, r)) : p + r = pos + rem ∧ pos ≤ p := by
  unfold gzZstrStep at h
  rcases hz : zstrLen src pos rem with _ | l
  · rw [hz] at h; cases h
  · rw [hz] at h
    simp only [Option.map_some'] at h
    have hp := congrArg Prod.fst (Option.some.inj h)
    have hr := congrArg Prod.snd (Option.some.inj h)
    dsimp only at hp hr
    have := zstrLen_le src rem pos l hz
    omega

theorem gzOptFields_sum {src : List Nat} {flags pos rem p r : Nat}
    (h : gzOptFields src flags pos rem = some (p, r)) :
    p + r = pos + rem ∧ pos ≤ p := by
  unfold gzOptFields at h
  rcases h1 : (if flags &&& 4 ≠ 0 then gzExtraStep src pos rem else some (pos, rem))
      with _ | ⟨p1, r1⟩
  · rw [h1] at h; cases h
  · rw [h1] at h
    dsimp only at h
    have hs1 : p1 + r1 = pos + rem ∧ pos ≤ p1 := by
      by_cases hf : flags &&& 4 ≠ 0
      · rw [if_pos hf] at h1; exact gzExtraStep_sum h1
      · rw [if_neg hf] at h1
        have hp := congrArg Prod.fst (Option.some.inj h1)
        have hr := congrArg Prod.snd (Option.some.inj h1)
        dsimp only at hp hr
        omega
    rcases h2 : (if flags &&& 8 ≠ 0 then gzZstrStep src p1 r1 else some (p1, r1))
        with _ | ⟨p2, r2⟩
    · rw [h2] at h; cases h
    · rw [h2] at h
      dsimp only at h
      have hs2 : p2 + r2 = p1 + r1 ∧ p1 ≤ p2 := by
        by_cases hf : flags &&& 8 ≠ 0
        · rw [if_pos hf] at h2; exact gzZstrStep_sum h2
        · rw [if_neg hf] at h2
          have hp := congrArg Prod.fst (Option.some.inj h2)
          have hr := congrArg Prod.snd (Option.some.inj h2)
          dsimp only at hp hr
          omega
      rcases h3 : (if flags &&& 16 ≠ 0 then gzZstrStep src p2 r2 else some (p2, r2))
          with _ | ⟨p3, r3⟩
      · rw [h3] at h; cases h
      · rw [h3] at h
        dsimp only at h
        have hs3 : p3 + r3 = p2 + r2 ∧ p2 ≤ p3 := by
          by_cases hf : flags &&& 16 ≠ 0
          · rw [if_pos hf] at h3; exact gzZstrStep_sum h3
          · rw [if_neg hf] at h3
            have hp := congrArg Prod.fst (Option.some.inj h3)
            have hr := congrArg Prod.snd (Option.some.inj h3)
            dsimp only at hp hr
            omega
        have hs4 : p + r = p3 + r3 ∧ p3 ≤ p := by
          by_cases hf : flags &&& 2 ≠ 0
          · rw [if_pos hf] at h
            by_cases hr2 : r3 < 2
            · rw [if_pos hr2] at h; cases h
            · rw [if_neg hr2] at h
              have hp := congrArg Prod.fst (Option.some.inj h)
              have hr := congrArg Prod.snd (Option.some.inj h)
              dsimp only at hp hr
              omega
          · rw [if_neg hf] at h
            have hp := congrArg Prod.fst (Option.some.inj h)
            have hr := congrArg Prod.snd (Option.some.inj h)
            dsimp only at hp hr
            omega
        omega

/-- C4.  `ParseGZArchive` succeeds only with the gzip magic, the single
supported method 8, and a non-empty payload; the returned payload span sits
after at least the 10-byte base header and ends exactly 8 bytes before the
buffer's end, and the trailer is decoded as little-endian CRC32 followed by
little-endian size-mod-2^32 from those last 8 bytes.  Buffers shorter than
base header + trailer, or with a different declared method, never parse. -/
theorem gz_parse_characterization (src : List Nat) :
    (∀ a : GzArch, ParseGZArchive src = some a →
      src.getD 0 0 = 0x1f ∧ src.getD 1 0 = 0x8b ∧ src.getD 2 0 = 8 ∧
      0 < a.compLen ∧ 10 ≤ a.compOfs ∧ a.compOfs + a.compLen + 8 = src.length ∧
      a.crc32 = readLE src (src.length - 8) 4 ∧
      a.isize = readLE src (src.length - 4) 4) ∧
    (src.length < 18 → ParseGZArchive src = none) ∧
    (src.getD 2 0 ≠ 8 → ParseGZArchive src = none) := by
  refine ⟨?_, ?_, ?_⟩
  · intro a h
    unfold ParseGZArchive at h
    by_cases hl : src.length < 18
    · rw [if_pos hl] at h; cases h
    · rw [if_neg hl] at h
      by_cases hm : src.getD 0 0 = 0x1f ∧ src.getD 1 0 = 0x8b
      · rw [if_pos hm] at h
        rcases ho : gzOptFields src (src.getD 3 0) 10 (src.length - 10)
            with _ | ⟨pos, rem⟩
        · rw [ho] at h; cases h
        · rw [ho] at h
          dsimp only at h
          have hsum := gzOptFields_sum ho
          by_cases h8 : rem < 8
          · rw [if_pos h8] at h; cases h
          · rw [if_neg h8] at h
            by_cases hq : src.getD 2 0 = 8 ∧ 0 < rem - 8
            · rw [if_pos hq] at h
              have ha := Option.some.inj h
              subst ha
              dsimp only
              refine ⟨hm.1, hm.2, hq.1, hq.2, by omega, by omega, ?_, ?_⟩
              · show readLE src (pos + rem - 8) 4 = readLE src (src.length - 8) 4
                congr 1
                omega
              · show readLE src (pos + rem - 4) 4 = readLE src (src.length - 4) 4
                congr 1
                omega
            · rw [if_neg hq] at h; cases h
      · rw [if_neg hm] at h; cases h
  · intro hl
    unfold ParseGZArchive
    rw [if_pos hl]
  · intro hmethod
    unfold ParseGZArchive
    by_cases hl : src.length < 18
    · rw [if_pos hl]
    · rw [if_neg hl]
      by_cases hm : src.getD 0 0 = 0x1f ∧ src.getD 1 0 = 0x8b
      · rw [if_pos hm]
        rcases ho : gzOptFields src (src.getD 3 0) 10 (src.length - 10)
            with _ | ⟨pos, rem⟩
        · rfl
        · dsimp only
          by_cases h8 : rem < 8
          · rw [if_pos h8]
          · rw [if_neg h8]
            rw [if_neg (by tauto : ¬(src.getD 2 0 = 8 ∧ 0 < rem - 8))]
      · rw [if_neg hm]

theorem gz_parse_characterization_witness :
    ParseGZArchive [31, 139, 8, 30, 0, 0, 0, 0, 0, 0, 1, 0, 9, 65, 0, 66, 0,
        7, 7, 99, 1, 0, 0, 0, 2, 0, 0, 0] = some ⟨19, 1, 1, 2⟩ ∧
      (19 + 1 + 8 = 28 ∧ (1 : Nat) = readLE [31, 139, 8, 30, 0, 0, 0, 0, 0, 0,
        1, 0, 9, 65, 0, 66, 0, 7, 7, 99, 1, 0, 0, 0, 2, 0, 0, 0] 20 4) := by
  have h := (gz_parse_characterization [31, 139, 8, 30, 0, 0, 0, 0, 0, 0, 1, 0,
    9, 65, 0, 66, 0, 7, 7, 99, 1, 0, 0, 0, 2, 0, 0, 0]).1 ⟨19, 1, 1, 2⟩
    (by decide)
  exact ⟨by decide, by omega, by decide⟩

/-- C8.  With a well-placed, well-signed central-directory entry at `ofs`:
if its compression method is not 8 (in particular a stored, method-0,
entry) the walk skips it and continues at the next entry, whatever its
position; and an entry declaring deflate with nonzero sizes whose local
file header passes the signature/bounds tests is returned immediately,
with the payload span starting right after the local header's variable
fields and the local header's sizes. -/
theorem zip_first_deflate_entry (src : List Nat) (base cdirSize n ofs : Nat)
    (hfit : ofs + zipEntryLen src (base + ofs) ≤ cdirSize)
    (hsig : readLE src (base + ofs) 4 = 0x02014b50) :
    (readLE src (base + ofs + 10) 2 ≠ 8 →
      zipFindEntry src base cdirSize (n + 1) ofs =
        zipFindEntry src base cdirSize n (ofs + zipEntryLen src (base + ofs))) ∧
    (readLE src (base + ofs + 10) 2 = 8 → 0 < readLE src (base + ofs + 20) 4 →
      0 < readLE src (base + ofs + 24) 4 →
      zipLfhAccept src (readLE src (base + ofs + 42) 4) = true →
      zipFindEntry src base cdirSize (n + 1) ofs =
        some (readLE src (base + ofs + 42) 4 + 30 +
            readLE src (readLE src (base + ofs + 42) 4 + 26) 2 +
            readLE src (readLE src (base + ofs + 42) 4 + 28) 2,
          readLE src (readLE src (base + ofs + 42) 4 + 18) 4,
          readLE src (readLE src (base + ofs + 42) 4 + 22) 4)) := by
  have hguard : ¬(cdirSize < ofs + zipEntryLen src (base + ofs) ∨
      readLE src (base + ofs) 4 ≠ 0x02014b50) := by
    push_neg
    exact ⟨hfit, hsig⟩
  constructor
  · intro hm
    show (if cdirSize < ofs + zipEntryLen src (base + ofs) ∨
        readLE src (base + ofs) 4 ≠ 0x02014b50 then none
      else if readLE src (base + ofs + 10) 2 = 8 ∧
          0 < readLE src (base + ofs + 20) 4 ∧
          0 < readLE src (base + ofs + 24) 4 then _
      else zipFindEntry src base cdirSize n (ofs + zipEntryLen src (base + ofs))) = _
    rw [if_neg hguard, if_neg (by tauto :
      ¬(readLE src (base + ofs + 10) 2 = 8 ∧ 0 < readLE src (base + ofs + 20) 4 ∧
        0 < readLE src (base + ofs + 24) 4))]
  · intro hm hc hu hl
    show (if cdirSize < ofs + zipEntryLen src (base + ofs) ∨
        readLE src (base + ofs) 4 ≠ 0x02014b50 then none
      else if readLE src (base + ofs + 10) 2 = 8 ∧
          0 < readLE src (base + ofs + 20) 4 ∧
          0 < readLE src (base + ofs + 24) 4 then
        (if zipLfhAccept src (readLE src (base + ofs + 42) 4) then _ else _)
      else _) = _
    rw [if_neg hguard, if_pos ⟨hm, hc, hu⟩, if_pos hl]

theorem zip_first_deflate_entry_witness :
    (0 : Nat) + zipEntryLen (80 :: 75 :: 1 :: 2 :: List.replicate 42 0) 0 ≤ 46 ∧
      readLE (80 :: 75 :: 1 :: 2 :: List.replicate 42 0) 0 4 = 0x02014b50 ∧
      zipFindEntry (80 :: 75 :: 1 :: 2 :: List.replicate 42 0) 0 46 1 0 =
        zipFindEntry (80 :: 75 :: 1 :: 2 :: List.replicate 42 0) 0 46 0 46 := by
  refine ⟨by decide, by decide, ?_⟩
  exact (zip_first_deflate_entry (80 :: 75 :: 1 :: 2 :: List.replicate 42 0)
    0 46 0 0 (by decide) (by decide)).1 (by decide)

theorem avroVarintLoop_bounds (src : List Nat) (e : Nat) :
    ∀ (fuel cur u scale : Nat), cur ≤ e →
      cur ≤ (avroVarintLoop src e fuel cur u scale).2 ∧
        (avroVarintLoop src e fuel cur u scale).2 ≤ e := by
  intro fuel
  induction fuel with
  | zero => intro cur u scale h; exact ⟨Nat.le_refl cur, h⟩
  | succ k ih =>
    intro cur u scale h
    simp only [avroVarintLoop]
    by_cases hc : cur < e
    · rw [if_pos hc]
      by_cases hb : src.getD cur 0 < 128
      · rw [if_pos hb]
        exact ⟨Nat.le_succ cur, hc⟩
      · rw [if_neg hb]
        have := ih (cur + 1) ((u + src.getD cur 0 % 128 * scale) % 2 ^ 64)
          (scale * 128 % 2 ^ 64) hc
        exact ⟨Nat.le_trans (Nat.le_succ cur) this.1, this.2⟩
    · rw [if_neg hc]
      exact ⟨Nat.le_refl cur, h⟩

theorem avroVarintLoop_frame (src src2 : List Nat) (e : Nat) :
    ∀ (fuel cur u scale : Nat),
      (∀ j, cur ≤ j → j < e → src.getD j 0 = src2.getD j 0) →
      avroVarintLoop src e fuel cur u scale = avroVarintLoop src2 e fuel cur u scale := by
  intro fuel
  induction fuel with
  | zero => intro cur u scale _; rfl
  | succ k ih =>
    intro cur u scale h
    simp only [avroVarintLoop]
    by_cases hc : cur < e
    · rw [if_pos hc, if_pos hc, h cur (Nat.le_refl cur) hc]
      by_cases hb : src2.getD cur 0 < 128
      · rw [if_pos hb, if_pos hb]
      · rw [if_neg hb, if_neg hb]
        exact ih (cur + 1) _ _ (fun j hj1 hj2 => h j (Nat.le_trans (Nat.le_succ cur) hj1) hj2)
    · rw [if_neg hc, if_neg hc]

/-- C9.  `avro_decode_zigzag_varint` called with `cur >= end` reads nothing
and returns 0 with the cursor unchanged; the returned cursor never moves
backwards and never passes `end`; and the result depends only on the bytes
in `[cur, end)` — no byte at or beyond `end` is ever read.  (The embedded
function is total by construction: each loop iteration consumes one byte.) -/
theorem avro_varint_safe (src : List Nat) (cur e : Nat) :
    (e ≤ cur → avro_decode_zigzag_varint src cur e = (0, cur)) ∧
    (cur ≤ e → cur ≤ (avro_decode_zigzag_varint src cur e).2 ∧
      (avro_decode_zigzag_varint src cur e).2 ≤ e) ∧
    (∀ src2 : List Nat, (∀ j, cur ≤ j → j < e → src.getD j 0 = src2.getD j 0) →
      avro_decode_zigzag_varint src cur e = avro_decode_zigzag_varint src2 cur e) := by
  refine ⟨?_, ?_, ?_⟩
  · intro h
    simp [avro_decode_zigzag_varint, avroVarintU, Nat.not_lt.2 h, zigzagOf]
  · intro h
    simp only [avro_decode_zigzag_varint, avroVarintU]
    by_cases hc : cur < e
    · rw [if_pos hc]
      by_cases hb : 0x7f < src.getD cur 0
      · rw [if_pos hb]
        have := avroVarintLoop_bounds src e e (cur + 1) (src.getD cur 0 % 128) 128 hc
        exact ⟨Nat.le_trans (Nat.le_succ cur) this.1, this.2⟩
      · rw [if_neg hb]
        exact ⟨Nat.le_succ cur, hc⟩
    · rw [if_neg hc]
      exact ⟨Nat.le_refl cur, h⟩
  · intro src2 h
    simp only [avro_decode_zigzag_varint, avroVarintU]
    by_cases hc : cur < e
    · rw [if_pos hc, if_pos hc, h cur (Nat.le_refl cur) hc]
      by_cases hb : 0x7f < src2.getD cur 0
      · rw [if_pos hb, if_pos hb,
          avroVarintLoop_frame src src2 e e (cur + 1) (src2.getD cur 0 % 128) 128
            (fun j hj1 hj2 => h j (Nat.le_trans (Nat.le_succ cur) hj1) hj2)]
      · rw [if_neg hb, if_neg hb]
    · rw [if_neg hc, if_neg hc]

theorem avro_varint_safe_witness :
    avro_decode_zigzag_varint [5, 200] 2 2 = (0, 2) ∧
      2 ≤ (avro_decode_zigzag_varint [5, 200, 3] 2 3).2 ∧
      (avro_decode_zigzag_varint [5, 200, 3] 2 3).2 ≤ 3 ∧
      avro_decode_zigzag_varint [5, 200, 3] 1 3 =
        avro_decode_zigzag_varint [5, 200, 3] 1 3 := by
  have h1 := (avro_varint_safe [5, 200] 2 2).1 (Nat.le_refl 2)
  have h2 := (avro_varint_safe [5, 200, 3] 2 3).2.1 (by decide)
  have h3 := (avro_varint_safe [5, 200, 3] 1 3).2.2 [5, 200, 3]
    (fun j hj1 hj2 => rfl)
  exact ⟨h1, h2.1, h2.2, h3⟩

theorem avroTail_cur (schema : List SchemaEntry) (e : Nat) (ent : SchemaEntry)
    (i cur2 : Nat) (ws : List AvroWrite) (aS2 aR2 : Nat) (aC2 skip2 : Int) :
    stepCur (avroTail schema e ent i cur2 ws aS2 aR2 aC2 skip2) = cur2 := by
  simp only [avroTail]
  repeat' split
  all_goals rfl

theorem avroTail_writes (schema : List SchemaEntry) (e : Nat) (ent : SchemaEntry)
    (i cur2 : Nat) (ws : List AvroWrite) (aS2 aR2 : Nat) (aC2 skip2 : Int) :
    stepWrites (avroTail schema e ent i cur2 ws aS2 aR2 aC2 skip2) = ws := by
  simp only [avroTail]
  repeat' split
  all_goals rfl

theorem stepWrites_nil (schema : List SchemaEntry) (dict : List (Nat × Nat))
    (row maxRows : Nat) (src : List Nat) (e : Nat) (st : AvroState)
    (h : maxRows ≤ row) :
    stepWrites (avroStep schema dict row maxRows src e st) = [] := by
  have hw : decide (row < maxRows) = false := decide_eq_false (Nat.not_lt.2 h)
  have hsw : ∀ (st2 : AvroState) (skip0 : Int),
      stepWrites (avroSwitch schema dict row maxRows src e st2 skip0) = [] := by
    intro st2 skip0
    simp only [avroSwitch, hw, Bool.and_false, Bool.false_eq_true, if_false,
      avroTail_writes]
    repeat' split
    all_goals rfl
  simp only [avroStep]
  repeat' split
  all_goals first | rfl | exact hsw _ _

/-- C5.  When the row index passed to `avro_decode_row` is at or beyond
`max_rows`, the row is still parsed but no output store of any kind is
performed.  The kernel passes `cur_row - first_row + threadIdx.x` in
`size_t` arithmetic as that index: for rows below `first_row` the
subtraction wraps to a huge value (at least `max_rows` for any realistic
window), and for rows at or beyond `first_row` it is the plain offset, so
exactly the rows outside `[first_row, first_row + max_rows)` are parsed
without any output-state modification. -/
theorem avro_row_window (schema : List SchemaEntry) (dict : List (Nat × Nat))
    (row maxRows : Nat) (src : List Nat) (e : Nat) (h : maxRows ≤ row) :
    (∀ (fuel : Nat) (st : AvroState),
      (avroDecodeRow schema dict row maxRows src e fuel st).2 = []) ∧
    (∀ cur_row first_row tix : Nat, cur_row + tix < first_row →
      first_row < 2 ^ 64 → first_row - (cur_row + tix) ≤ 2 ^ 64 - maxRows →
      maxRows ≤ kernelRowArg cur_row first_row tix) ∧
    (∀ cur_row first_row tix : Nat, first_row ≤ cur_row →
      first_row < 2 ^ 64 → cur_row + tix - first_row < 2 ^ 64 →
      kernelRowArg cur_row first_row tix = cur_row + tix - first_row) := by
  have h64 : (2 : Nat) ^ 64 = 18446744073709551616 := by norm_num
  refine ⟨?_, ?_, ?_⟩
  · intro fuel
    induction fuel with
    | zero => intro st; rfl
    | succ k ih =>
      intro st
      simp only [avroDecodeRow]
      rcases hs : avroStep schema dict row maxRows src e st with c | ⟨st2, ws⟩
      · rfl
      · have hws := stepWrites_nil schema dict row maxRows src e st h
        rw [hs] at hws
        dsimp only
        rw [show ws = [] from hws, ih st2]
        rfl
  · intro cr fr tix h1 h2 h3
    unfold kernelRowArg
    simp only [h64] at h2 h3 ⊢
    omega
  · intro cr fr tix h1 h2 h3
    unfold kernelRowArg
    simp only [h64] at h2 h3 ⊢
    omega

theorem avro_row_window_witness :
    (avroDecodeRow [⟨2, 0, true⟩] [] 5 1 [2] 1 3 ⟨0, 0, 0, 0, 0⟩).2 = [] ∧
      1 ≤ kernelRowArg 0 3 0 ∧ kernelRowArg 7 3 1 = 5 := by
  have h := avro_row_window [⟨2, 0, true⟩] [] 5 1 [2] 1 (by decide)
  exact ⟨h.1 3 ⟨0, 0, 0, 0, 0⟩,
    h.2.1 0 3 0 (by decide) (by norm_num) (by norm_num),
    h.2.2 7 3 1 (by decide) (by norm_num) (by norm_num)⟩

/-- C6 counterexample.  A float field with a non-null output pointer, a row
inside the window, and fewer than 4 input bytes remaining: the value 0 is
stored but the cursor does **not** advance (it stays at 0, not 0 + 4). -/
theorem avro_float_truncated_no_advance :
    stepCur (avroStep [⟨4, 0, true⟩] [] 0 1 [1, 2] 2 ⟨0, 0, 0, 0, 0⟩) = 0 ∧
      stepWrites (avroStep [⟨4, 0, true⟩] [] 0 1 [1, 2] 2 ⟨0, 0, 0, 0, 0⟩) =
        [.storeFloat 0 0 0] ∧
      (0 : Nat) ≠ 0 + 4 := by decide

/-- C6 (amended).  For a float (double) field: when the full 4 (8) bytes are
available and the row is written, the little-endian value is stored and the
cursor advances by 4 (8); when the row is not written (null output pointer
or row outside the window) the cursor advances by 4 (8) with no store; but
when the row is written and the input is truncated, zero is stored and the
cursor does not advance at all. -/
theorem avro_float_double_cursor (schema : List SchemaEntry)
    (dict : List (Nat × Nat)) (row maxRows : Nat) (src : List Nat) (e : Nat)
    (st : AvroState) (hi : st.i < schema.length) :
    ((schema.getD st.i noSchema).kind = 4 →
      ((schema.getD st.i noSchema).hasData = true → row < maxRows →
        st.cur + 3 < e →
        stepCur (avroStep schema dict row maxRows src e st) = st.cur + 4 ∧
          stepWrites (avroStep schema dict row maxRows src e st) =
            [.storeFloat st.i row (readLE src st.cur 4)]) ∧
      ((schema.getD st.i noSchema).hasData = true → row < maxRows →
        ¬st.cur + 3 < e →
        stepCur (avroStep schema dict row maxRows src e st) = st.cur ∧
          stepWrites (avroStep schema dict row maxRows src e st) =
            [.storeFloat st.i row 0]) ∧
      (((schema.getD st.i noSchema).hasData = false ∨ maxRows ≤ row) →
        stepCur (avroStep schema dict row maxRows src e st) = st.cur + 4 ∧
          stepWrites (avroStep schema dict row maxRows src e st) = [])) ∧
    ((schema.getD st.i noSchema).kind = 5 →
      ((schema.getD st.i noSchema).hasData = true → row < maxRows →
        st.cur + 7 < e →
        stepCur (avroStep schema dict row maxRows src e st) = st.cur + 8 ∧
          stepWrites (avroStep schema dict row maxRows src e st) =
            [.storeDouble st.i row (readLE src st.cur 8)]) ∧
      ((schema.getD st.i noSchema).hasData = true → row < maxRows →
        ¬st.cur + 7 < e →
        stepCur (avroStep schema dict row maxRows src e st) = st.cur ∧
          stepWrites (avroStep schema dict row maxRows src e st) =
            [.storeDouble st.i row 0]) ∧
      (((schema.getD st.i noSchema).hasData = false ∨ maxRows ≤ row) →
        stepCur (avroStep schema dict row maxRows src e st) = st.cur + 8 ∧
          stepWrites (avroStep schema dict row maxRows src e st) = [])) := by
  constructor
  · intro hk
    simp only [List.getD_eq_getElem?_getD] at hk
    have hstep : avroStep schema dict row maxRows src e st =
        avroSwitch schema dict row maxRows src e st 0 := by
      unfold avroStep
      rw [if_neg (Nat.not_le.2 hi), if_neg (by simp [hk])]
    refine ⟨?_, ?_, ?_⟩
    · intro hd hr hc
      simp only [List.getD_eq_getElem?_getD] at hd
      rw [hstep]
      constructor
      · simp [avroSwitch, hk, hd, hr, hc, avroTail_cur]
      · simp [avroSwitch, hk, hd, hr, hc, avroTail_writes]
    · intro hd hr hc
      simp only [List.getD_eq_getElem?_getD] at hd
      rw [hstep]
      constructor
      · simp [avroSwitch, hk, hd, hr, hc, avroTail_cur]
      · simp [avroSwitch, hk, hd, hr, hc, avroTail_writes]
    · intro hnw
      simp only [List.getD_eq_getElem?_getD] at hnw
      have hw : ((schema[st.i]?.getD noSchema).hasData &&
          decide (row < maxRows)) = false := by
        rcases hnw with h1 | h1
        · simp [h1]
        · simp [decide_eq_false (Nat.not_lt.2 h1)]
      rw [hstep]
      constructor
      · simp [avroSwitch, hk, hw, avroTail_cur]
      · simp [avroSwitch, hk, hw, avroTail_writes]
  · intro hk
    simp only [List.getD_eq_getElem?_getD] at hk
    have hstep : avroStep schema dict row maxRows src e st =
        avroSwitch schema dict row maxRows src e st 0 := by
      unfold avroStep
      rw [if_neg (Nat.not_le.2 hi), if_neg (by simp [hk])]
    refine ⟨?_, ?_, ?_⟩
    · intro hd hr hc
      simp only [List.getD_eq_getElem?_getD] at hd
      rw [hstep]
      constructor
      · simp [avroSwitch, hk, hd, hr, hc, avroTail_cur]
      · simp [avroSwitch, hk, hd, hr, hc, avroTail_writes]
    · intro hd hr hc
      simp only [List.getD_eq_getElem?_getD] at hd
      rw [hstep]
      constructor
      · simp [avroSwitch, hk, hd, hr, hc, avroTail_cur]
      · simp [avroSwitch, hk, hd, hr, hc, avroTail_writes]
    · intro hnw
      simp only [List.getD_eq_getElem?_getD] at hnw
      have hw : ((schema[st.i]?.getD noSchema).hasData &&
          decide (row < maxRows)) = false := by
        rcases hnw with h1 | h1
        · simp [h1]
        · simp [decide_eq_false (Nat.not_lt.2 h1)]
      rw [hstep]
      constructor
      · simp [avroSwitch, hk, hw, avroTail_cur]
      · simp [avroSwitch, hk, hw, avroTail_writes]

theorem avro_float_double_cursor_witness :
    stepCur (avroStep [⟨4, 0, true⟩] [] 0 1 [1, 0, 0, 0, 9] 5 ⟨0, 0, 0, 0, 0⟩)
        = 4 ∧
      stepWrites (avroStep [⟨4, 0, true⟩] [] 0 1 [1, 0, 0, 0, 9] 5
        ⟨0, 0, 0, 0, 0⟩) = [.storeFloat 0 0 1] ∧
      stepCur (avroStep [⟨5, 0, true⟩] [] 0 1 [1, 2] 2 ⟨0, 0, 0, 0, 0⟩) = 0 := by
  have h1 := ((avro_float_double_cursor [⟨4, 0, true⟩] [] 0 1 [1, 0, 0, 0, 9] 5
    ⟨0, 0, 0, 0, 0⟩ (by decide)).1 rfl).1 rfl (by decide) (by decide)
  have h2 := ((avro_float_double_cursor [⟨5, 0, true⟩] [] 0 1 [1, 2] 2
    ⟨0, 0, 0, 0, 0⟩ (by decide)).2 rfl).2.1 rfl (by decide) (by decide)
  exact ⟨h1.1, h1.2, h2.1⟩

theorem int32of_eq_self {v : Int} (h1 : -(2 ^ 31) ≤ v) (h2 : v < 2 ^ 31) :
    int32of v = v := by
  have hp1 : (2 : Int) ^ 31 = 2147483648 := by norm_num
  have hp2 : (2 : Int) ^ 32 = 4294967296 := by norm_num
  unfold int32of
  rw [hp1, hp2]
  rw [hp1] at h1 h2
  omega

theorem int32of_range (v : Int) :
    -(2 ^ 31) ≤ int32of v ∧ int32of v < 2 ^ 31 := by
  have hp1 : (2 : Int) ^ 31 = 2147483648 := by norm_num
  have hp2 : (2 : Int) ^ 32 = 4294967296 := by norm_num
  unfold int32of
  rw [hp1, hp2]
  omega

theorem uint32of_eq {v : Int} (h1 : 0 ≤ v) (h2 : v < 2 ^ 32) :
    (uint32of v : Int) = v := by
  have hp2 : (2 : Int) ^ 32 = 4294967296 := by norm_num
  unfold uint32of
  rw [hp2]
  rw [hp2] at h2
  omega

/-- A single unfolding of the row-decode driver. -/
theorem avroDecodeRow_succ (schema : List SchemaEntry) (dict : List (Nat × Nat))
    (row maxRows : Nat) (src : List Nat) (e fuel : Nat) (st : AvroState) :
    avroDecodeRow schema dict row maxRows src e (fuel + 1) st =
      match avroStep schema dict row maxRows src e st with
      | .done c => (c, [])
      | .next st2 ws =>
        ((avroDecodeRow schema dict row maxRows src e fuel st2).1,
          ws ++ (avroDecodeRow schema dict row maxRows src e fuel st2).2) := rfl

theorem replApp_getD (l : List Nat) (a : Nat) :
    ∀ (n j : Nat), (List.replicate n a ++ l).getD j 0 =
      if j < n then a else l.getD (j - n) 0 := by
  intro n
  induction n with
  | zero => intro j; simp
  | succ k ih =>
    intro j
    cases j with
    | zero => simp [List.replicate]
    | succ m =>
      rw [List.replicate_succ, List.cons_append, List.getD_cons_succ, ih m]
      by_cases hm : m < k
      · rw [if_pos hm, if_pos (by omega)]
      · rw [if_neg hm, if_neg (by omega)]
        congr 1
        omega

theorem arrSrc_zero (n : Nat) (rest : List Nat) :
    (arrSrc n rest).getD 0 0 = 2 * n := rfl

theorem arrSrc_item (n : Nat) (rest : List Nat) (j : Nat) (h1 : 1 ≤ j)
    (h2 : j ≤ n) : (arrSrc n rest).getD j 0 = 2 := by
  unfold arrSrc
  cases j with
  | zero => omega
  | succ m =>
    rw [List.getD_cons_succ, replApp_getD, if_pos (by omega)]

theorem arrSrc_term (n : Nat) (rest : List Nat) :
    (arrSrc n rest).getD (n + 1) 0 = 0 := by
  unfold arrSrc
  rw [List.getD_cons_succ, replApp_getD, if_neg (by omega)]
  simp

theorem avro_varint_byte (src : List Nat) (cur e : Nat) (h1 : cur < e)
    (h2 : src.getD cur 0 < 128) :
    avro_decode_zigzag_varint src cur e = (zigzagOf (src.getD cur 0), cur + 1) := by
  unfold avro_decode_zigzag_varint avroVarintU
  rw [if_pos h1, if_neg (by omega)]

theorem arr_first_step (n : Nat) (rest : List Nat) (h1 : 1 ≤ n) (h2 : n ≤ 63) :
    avroStep arrSchema [] 0 1 (arrSrc n rest) (n + 2) ⟨0, 0, 0, 0, 0⟩ =
      .next ⟨1, 0, n, 1, 1⟩ [] := by
  have hp1 : (2 : Int) ^ 31 = 2147483648 := by norm_num
  have hp2 : (2 : Int) ^ 32 = 4294967296 := by norm_num
  have hz : zigzagOf (2 * n) = (n : Int) := by
    unfold zigzagOf
    rw [if_pos (by omega)]
    have hd : 2 * n / 2 = n := by omega
    rw [hd]
  have hv : avro_decode_zigzag_varint (arrSrc n rest) 0 (n + 2) = ((n : Int), 1) := by
    rw [avro_varint_byte (arrSrc n rest) 0 (n + 2) (by omega)
        (by rw [arrSrc_zero]; omega),
      arrSrc_zero, hz]
  have hb : int32of (n : Int) = (n : Int) :=
    int32of_eq_self (by rw [hp1]; omega) (by rw [hp1]; omega)
  have hu : uint32of (n : Int) = n := by
    unfold uint32of
    rw [hp2]
    omega
  have hacount : avroArrayCount (arrSrc n rest) 0 (n + 2) = (n, 1) := by
    unfold avroArrayCount
    rw [hv]
    dsimp only
    rw [hb, if_neg (by omega), hu]
  have hn0 : ¬n = 0 := by omega
  simp [avroStep, avroSwitch, avroTail, arrSchema, hacount, hn0, skipWalk]

theorem arr_item_step_mid (n : Nat) (rest : List Nat) (m : Nat) (h1 : 2 ≤ m)
    (h2 : m ≤ n) :
    avroStep arrSchema [] 0 1 (arrSrc n rest) (n + 2) ⟨1, 0, m, 1, n + 1 - m⟩ =
      .next ⟨1, 0, m - 1, 1, n + 2 - m⟩ [.storeInt 1 0 1] := by
  have hz : zigzagOf 2 = 1 := by decide
  have hv : avro_decode_zigzag_varint (arrSrc n rest) (n + 1 - m) (n + 2) =
      ((1 : Int), n + 2 - m) := by
    rw [avro_varint_byte (arrSrc n rest) (n + 1 - m) (n + 2) (by omega)
        (by rw [arrSrc_item n rest (n + 1 - m) (by omega) (by omega)]; omega),
      arrSrc_item n rest (n + 1 - m) (by omega) (by omega), hz]
    congr 1
    omega
  have hm0 : ¬m = 0 := by omega
  have hm1 : ¬m - 1 = 0 := by omega
  have hi32 : int32of (1 : Int) = 1 := by decide
  simp [avroStep, avroSwitch, avroTail, arrSchema, hv, hm0, hm1, hi32, skipWalk]

theorem arr_item_step_last (n : Nat) (rest : List Nat) (h1 : 1 ≤ n) :
    avroStep arrSchema [] 0 1 (arrSrc n rest) (n + 2) ⟨1, 0, 1, 1, n⟩ =
      .next ⟨0, 0, 0, 0, n + 1⟩ [.storeInt 1 0 1] := by
  have hz : zigzagOf 2 = 1 := by decide
  have hv : avro_decode_zigzag_varint (arrSrc n rest) n (n + 2) =
      ((1 : Int), n + 1) := by
    rw [avro_varint_byte (arrSrc n rest) n (n + 2) (by omega)
        (by rw [arrSrc_item n rest n (by omega) (by omega)]; omega),
      arrSrc_item n rest n (by omega) (by omega), hz]
  have hi32 : int32of (1 : Int) = 1 := by decide
  simp [avroStep, avroSwitch, avroTail, arrSchema, hv, hi32, skipWalk]

theorem arr_term_step (n : Nat) (rest : List Nat) :
    avroStep arrSchema [] 0 1 (arrSrc n rest) (n + 2) ⟨0, 0, 0, 0, n + 1⟩ =
      .next ⟨2, 0, 0, 1, n + 2⟩ [] := by
  have hz : zigzagOf 0 = 0 := by decide
  have hv : avro_decode_zigzag_varint (arrSrc n rest) (n + 1) (n + 2) =
      ((0 : Int), n + 2) := by
    rw [avro_varint_byte (arrSrc n rest) (n + 1) (n + 2) (by omega)
        (by rw [arrSrc_term]; omega),
      arrSrc_term, hz]
  have hi0 : int32of (0 : Int) = 0 := by decide
  have hu0 : uint32of (0 : Int) = 0 := by decide
  have hacount : avroArrayCount (arrSrc n rest) (n + 1) (n + 2) = (0, n + 2) := by
    unfold avroArrayCount
    rw [hv]
    dsimp only
    rw [hi0, if_neg (by omega), hu0]
  simp [avroStep, avroSwitch, avroTail, arrSchema, hacount, skipWalk]

theorem arr_done_step (n : Nat) (rest : List Nat) :
    avroStep arrSchema [] 0 1 (arrSrc n rest) (n + 2) ⟨2, 0, 0, 1, n + 2⟩ =
      .done (n + 2) := by
  unfold avroStep
  rw [if_pos (by decide : arrSchema.length ≤ 2)]

theorem arr_run (n : Nat) (rest : List Nat) (h2 : n ≤ 63) :
    ∀ m, 1 ≤ m → m ≤ n →
      avroDecodeRow arrSchema [] 0 1 (arrSrc n rest) (n + 2) (m + 2)
          ⟨1, 0, m, 1, n + 1 - m⟩ =
        (n + 2, List.replicate m (.storeInt 1 0 1)) := by
  intro m
  induction m with
  | zero => intro h; omega
  | succ k ih =>
    intro h1 hmn
    by_cases hk0 : k = 0
    · subst hk0
      rw [show n + 1 - 1 = n by omega]
      rw [show (1 : Nat) + 2 = 2 + 1 from rfl, avroDecodeRow_succ,
        arr_item_step_last n rest (by omega)]
      dsimp only
      rw [show (2 : Nat) = 1 + 1 from rfl, avroDecodeRow_succ, arr_term_step n rest]
      dsimp only
      rw [show (1 : Nat) = 0 + 1 from rfl, avroDecodeRow_succ, arr_done_step n rest]
      rfl
    · rw [show k + 1 + 2 = (k + 2) + 1 by omega, avroDecodeRow_succ,
        arr_item_step_mid n rest (k + 1) (by omega) hmn]
      dsimp only
      have hst : (⟨1, 0, k + 1 - 1, 1, n + 2 - (k + 1)⟩ : AvroState) =
          ⟨1, 0, k, 1, n + 1 - k⟩ := by
        congr 1
        omega
      rw [hst, ih (by omega) (by omega)]
      rfl

/-- C7.  Array block counts: a non-negative (after 32-bit truncation) count
is used as-is with no extra read; a negative one causes exactly one further
varint (the byte-size prefix) to be read and discarded and the stored
repeat count to be its negation; the stored `array_repeat_count` is never
negative.  And block semantics on the spec's test shape: a block count `n`
(1 ≤ n ≤ 63) followed by `n` one-byte int items and a closing count 0
decodes to exactly `n` element stores, with the cursor stopping right after
the closing 0 — no trailing byte is consumed. -/
theorem avro_array_blocks :
    (∀ (src : List Nat) (cur e : Nat),
      (0 ≤ int32of (avro_decode_zigzag_varint src cur e).1 →
        avroArrayCount src cur e =
          ((int32of (avro_decode_zigzag_varint src cur e).1).toNat,
            (avro_decode_zigzag_varint src cur e).2)) ∧
      (int32of (avro_decode_zigzag_varint src cur e).1 < 0 →
        -(2 ^ 31) < int32of (avro_decode_zigzag_varint src cur e).1 →
        ((avroArrayCount src cur e).1 : Int) =
            -int32of (avro_decode_zigzag_varint src cur e).1 ∧
          (avroArrayCount src cur e).2 =
            (avro_decode_zigzag_varint src
              (avro_decode_zigzag_varint src cur e).2 e).2) ∧
      (0 : Int) ≤ ((avroArrayCount src cur e).1 : Int)) ∧
    (∀ (n : Nat) (rest : List Nat), 1 ≤ n → n ≤ 63 →
      avroDecodeRow arrSchema [] 0 1 (arrSrc n rest) (n + 2) (n + 3)
          ⟨0, 0, 0, 0, 0⟩ =
        (n + 2, List.replicate n (.storeInt 1 0 1))) := by
  have hp1 : (2 : Int) ^ 31 = 2147483648 := by norm_num
  have hp2 : (2 : Int) ^ 32 = 4294967296 := by norm_num
  constructor
  · intro src cur e
    refine ⟨?_, ?_, ?_⟩
    · intro h
      unfold avroArrayCount
      dsimp only
      rw [if_neg (by omega)]
      have hr := int32of_range (avro_decode_zigzag_varint src cur e).1
      rw [hp1] at hr
      have hu : (uint32of (int32of (avro_decode_zigzag_varint src cur e).1) : Int)
          = int32of (avro_decode_zigzag_varint src cur e).1 :=
        uint32of_eq h (by rw [hp2]; omega)
      have heq : uint32of (int32of (avro_decode_zigzag_varint src cur e).1) =
          (int32of (avro_decode_zigzag_varint src cur e).1).toNat := by omega
      rw [heq]
    · intro h h2
      rw [hp1] at h2
      unfold avroArrayCount
      dsimp only
      rw [if_pos (by omega)]
      have hb : int32of (-int32of (avro_decode_zigzag_varint src cur e).1) =
          -int32of (avro_decode_zigzag_varint src cur e).1 :=
        int32of_eq_self (by rw [hp1]; omega) (by rw [hp1]; omega)
      rw [hb]
      exact ⟨uint32of_eq (by omega) (by rw [hp2]; omega), rfl⟩
    · unfold avroArrayCount
      dsimp only
      split
      · exact Int.natCast_nonneg _
      · exact Int.natCast_nonneg _
  · intro n rest h1 h2
    rw [show n + 3 = (n + 2) + 1 by omega, avroDecodeRow_succ,
      arr_first_step n rest h1 h2]
    dsimp only
    have hrun := arr_run n rest h2 n h1 (Nat.le_refl n)
    rw [show n + 1 - n = 1 by omega] at hrun
    rw [hrun]
    rfl

theorem avro_array_blocks_witness :
    avroArrayCount [2] 0 1 = (1, 1) ∧
      avroDecodeRow arrSchema [] 0 1 (arrSrc 3 [9]) 5 6 ⟨0, 0, 0, 0, 0⟩ =
        (5, List.replicate 3 (.storeInt 1 0 1)) := by
  have h1 := (avro_array_blocks.1 [2] 0 1).1 (by decide)
  have h2 := avro_array_blocks.2 3 [9] (by decide) (by decide)
  exact ⟨h1.trans (by decide), h2⟩

end CudfDecode
